import Mathlib

/-!
Verification of the CloudTree snapshot core (`cloud_tree_core.py`, `cloud_tree.py`).

Strings are modelled as `List Char` (Python is Unicode; all behaviour relevant
here is per-code-point).  Python sets are modelled as lists whose membership is
the set membership; insertion is dedup-on-add.  Fallible filesystem operations
are modelled by explicit outcome constructors on the tree of directory entries.
-/

namespace CloudTree

/-- Characters stripped by Python `str.strip()` (the ASCII whitespace class;
non-ASCII whitespace does not occur in the data handled here). -/
def pyIsSpace (c : Char) : Bool :=
  c = ' ' || c = '\t' || c = '\n' || c = '\r' || c = '\x0b' || c = '\x0c'

/-- Python `str.strip()`: drop leading and trailing whitespace. -/
def pyStrip (l : List Char) : List Char :=
  ((l.dropWhile pyIsSpace).reverse.dropWhile pyIsSpace).reverse

/-- Python `str.lower()` (ASCII case mapping, as in `Char.toLower`). -/
def pyLower (l : List Char) : List Char :=
  l.map Char.toLower

/-- Python `set.add` on a list-modelled set: append if not already present. -/
def setAdd (s : List (List Char)) (x : List Char) : List (List Char) :=
  if x ∈ s then s else s ++ [x]

/-- `DEFAULT_EXCLUDED_EXTS` from `cloud_tree_core.py` (a Python set literal;
list order is immaterial, only membership is used). -/
def DEFAULT_EXCLUDED_EXTS : List (List Char) :=
  ["udsmesh".data, "uds".data, "obj".data, "fbx".data, "stl".data,
   "gltf".data, "glb".data, "ply".data,
   "las".data, "laz".data, "e57".data, "rcp".data, "rcs".data]

/-- `DEFAULT_EXCLUDED_BASENAMES` from `cloud_tree_core.py`. -/
def DEFAULT_EXCLUDED_BASENAMES : List (List Char) :=
  [".ds_store".data]

/-- `DEFAULT_EXCLUDED_DIRNAMES` from `cloud_tree_core.py`. -/
def DEFAULT_EXCLUDED_DIRNAMES : List (List Char) :=
  ["mesh".data, "meshes".data]

/-- `DEFAULT_EXCLUDED_DIR_PREFIXES` from `cloud_tree_core.py` (a tuple). -/
def DEFAULT_EXCLUDED_DIR_PREFIXES : List (List Char) :=
  ["pointcloud".data, "point cloud".data]

/-- Separator class of `re.split(r"[\s,;]+", ...)` in `parse_exclude_exts`. -/
def extSepChar (c : Char) : Bool :=
  pyIsSpace c || c = ',' || c = ';'

/-- Separator class of `re.split(r"[,;\n]+", ...)` in `parse_exclude_words`. -/
def wordSepChar (c : Char) : Bool :=
  c = ',' || c = ';' || c = '\n'

/-- `normalize_exclude_exts`: strip + lowercase each item, drop one leading
dot, discard empties, collect into a set. -/
def normalize_exclude_exts (items : List (List Char)) : List (List Char) :=
  items.foldl
    (fun out item =>
      let s := pyLower (pyStrip item)
      if s = [] then out
      else
        let s1 := if s.head? = some '.' then s.tail else s
        if s1 = [] then out else setAdd out s1)
    []

/-- `normalize_exclude_words`: strip + lowercase each item, discard empties,
collect into a set. -/
def normalize_exclude_words (items : List (List Char)) : List (List Char) :=
  items.foldl
    (fun out item =>
      let s := pyLower (pyStrip item)
      if s = [] then out else setAdd out s)
    []

/-- `parse_exclude_exts`.  `text = none` models Python `None`; `re.split` on
runs of separators differs from per-character splitting only by empty tokens,
which `normalize_exclude_exts` discards. -/
def parse_exclude_exts (text : Option (List Char)) : List (List Char) :=
  match text with
  | none => []
  | some t =>
    if t = [] then []
    else normalize_exclude_exts ((pyStrip t).splitOnP extSepChar)

/-- `parse_exclude_words` (note: the source does not strip the text before
splitting here, unlike `parse_exclude_exts`). -/
def parse_exclude_words (text : Option (List Char)) : List (List Char) :=
  match text with
  | none => []
  | some t =>
    if t = [] then []
    else normalize_exclude_words (t.splitOnP wordSepChar)

/-- The `Filters` dataclass. -/
structure Filters where
  excluded_exts : List (List Char)
  excluded_basenames : List (List Char)
  excluded_dirnames : List (List Char)
  excluded_dir_prefixes : List (List Char)
  excluded_words : List (List Char)
deriving DecidableEq, Repr

/-- `build_filters`: `none` models a Python argument left at `None` (defaults
apply); `some xs` models an explicitly passed iterable (normalized). -/
def build_filters
    (exclude_exts : Option (List (List Char)) := none)
    (exclude_words : Option (List (List Char)) := none)
    (exclude_basenames : Option (List (List Char)) := none)
    (exclude_dirnames : Option (List (List Char)) := none)
    (exclude_dir_prefs : Option (List (List Char)) := none) : Filters :=
  { excluded_exts :=
      match exclude_exts with
      | some xs => normalize_exclude_exts xs
      | none => DEFAULT_EXCLUDED_EXTS
    excluded_basenames :=
      match exclude_basenames with
      | some xs => normalize_exclude_words xs
      | none => DEFAULT_EXCLUDED_BASENAMES
    excluded_dirnames :=
      match exclude_dirnames with
      | some xs => normalize_exclude_words xs
      | none => DEFAULT_EXCLUDED_DIRNAMES
    excluded_dir_prefixes :=
      match exclude_dir_prefs with
      | some xs => normalize_exclude_words xs
      | none => DEFAULT_EXCLUDED_DIR_PREFIXES
    excluded_words :=
      match exclude_words with
      | some xs => normalize_exclude_words xs
      | none => [] }

/-- The filters a run uses when started through `run_snapshot`, which forwards
`exclude_exts` / `exclude_words` to `build_filters` and leaves the remaining
filter arguments at their defaults. -/
def run_snapshot_filters (exclude_exts exclude_words : Option (List (List Char))) :
    Filters :=
  build_filters exclude_exts exclude_words none none none

/-- The filters used by `cloud_tree.py main`: it always calls
`parse_exclude_exts` / `parse_exclude_words` on the (possibly absent)
command-line text and passes the resulting sets to `run_snapshot`. -/
def main_filters (cliExts cliWords : Option (List Char)) : Filters :=
  run_snapshot_filters (some (parse_exclude_exts cliExts))
    (some (parse_exclude_words cliWords))

/-- `_word_in_text`: any excluded word occurs as a substring of the lowercased
text. -/
def word_in_text (words : List (List Char)) (text : List Char) : Bool :=
  if words = [] then false
  else
    let t := pyLower text
    words.any (fun w => decide (w <:+: t))

/-- `is_excluded_dirname`. -/
def is_excluded_dirname (name : List Char) (filters : Filters) : Bool :=
  let n := pyLower (pyStrip name)
  if n ∈ filters.excluded_dirnames then true
  else if filters.excluded_dir_prefixes.any (fun p => p.isPrefixOf n) then true
  else word_in_text filters.excluded_words n

/-- `pathlib.PurePath(name).suffix` with the leading dot removed and
lowercased, as computed by `is_excluded_filename`:
the part after the last dot, but only when that dot is neither the first nor
the last character of the name (so dotfiles such as `.ds_store` and names
ending in a dot have no extension).  Faithful for directory-entry names
(which contain no path separator). -/
def pathExt (n : List Char) : List Char :=
  let e := (n.reverse.takeWhile (fun c => c ≠ '.')).reverse
  if e.length + 1 < n.length then e else []

/-- `is_excluded_filename`. -/
def is_excluded_filename (name : List Char) (filters : Filters) : Bool :=
  let n := pyLower (pyStrip name)
  if n ∈ filters.excluded_basenames then true
  else
    let ext := pyLower (pathExt name)
    if ext ≠ [] && ext ∈ filters.excluded_exts then true
    else word_in_text filters.excluded_words n

/-- `safe_path_for_tsv`: replace each tab, newline and carriage return in a
path by one space. -/
def safe_path_for_tsv (p : List Char) : List Char :=
  p.map (fun c => if c = '\t' || c = '\n' || c = '\r' then ' ' else c)

/-- The filter set of a run with every override left out
(`build_filters()` with all arguments at `None`). -/
def default_filters : Filters :=
  build_filters none none none none none

/-- The extension as the specification describes it: the suffix after the
last dot (dot stripped) whenever the name contains a dot at all.  This is the
reading refuted below; `pathExt` is what the code computes. -/
def claimed_ext (n : List Char) : List Char :=
  let e := (n.reverse.takeWhile (fun c => c ≠ '.')).reverse
  if e.length < n.length then e else []

/-- Lexicographic comparison of strings by code point, as Python compares
`str` values (used to model sort keys and `sorted`). -/
def lexLE : List Char → List Char → Bool
  | [], _ => true
  | _ :: _, [] => false
  | a :: as, b :: bs => if a = b then lexLE as bs else decide (a < b)

/-- Stable insertion of `a` into `l`: `a` goes before the first element it
compares `≤` to. -/
def insertS {α : Type} (le : α → α → Bool) (a : α) : List α → List α
  | [] => [a]
  | b :: bs => if le a b then a :: b :: bs else b :: insertS le a bs

/-- Stable insertion sort.  For a total preorder this computes the same list
as Python's stable `list.sort` / `sorted`. -/
def isort {α : Type} (le : α → α → Bool) : List α → List α
  | [] => []
  | a :: as => insertS le a (isort le as)

/-- Keep-first deduplication, as `dict.fromkeys` does in
`build_tree_ignore_pattern`. -/
def dedupKeepFirst (seen : List (List Char)) : List (List Char) → List (List Char)
  | [] => []
  | a :: as =>
    if a ∈ seen then dedupKeepFirst seen as else a :: dedupKeepFirst (a :: seen) as

/-- Python `str.capitalize()`: first character upper-cased, the rest
lower-cased (ASCII). -/
def pyCapitalize : List Char → List Char
  | [] => []
  | c :: cs => c.toUpper :: pyLower cs

/-- Helper for `pyTitle`: a letter is upper-cased when the previous character
is not a letter, lower-cased otherwise. -/
def pyTitleGo (prevAlpha : Bool) : List Char → List Char
  | [] => []
  | c :: cs =>
    (if c.isAlpha then (if prevAlpha then c.toLower else c.toUpper) else c) ::
      pyTitleGo c.isAlpha cs

/-- Python `str.title()` (ASCII). -/
def pyTitle (l : List Char) : List Char := pyTitleGo false l

/-- `_case_variants`: the original text plus, for all-lowercase text, its
capitalized and title-cased forms.  The source returns a Python set; the
list order here is immaterial (only membership is used downstream). -/
def case_variants (text : List Char) : List (List Char) :=
  if text = [] then []
  else if pyLower text ≠ text then [text]
  else dedupKeepFirst [] [text, pyCapitalize text, pyTitle text]

/-- `build_tree_ignore_pattern`: the list of glob patterns joined with `|`
for `tree -I` (modelled as the pattern list; `tree` splits the joined string
on `|` again). -/
def build_tree_ignore_pattern (F : Filters) : List (List Char) :=
  dedupKeepFirst []
    ((isort lexLE F.excluded_exts).map (fun e => '*' :: '.' :: e) ++
     (isort lexLE F.excluded_basenames).flatMap case_variants ++
     (isort lexLE F.excluded_dirnames).flatMap case_variants ++
     F.excluded_dir_prefixes.flatMap
       (fun p => (case_variants p).map (fun v => v ++ ['*'])))

/-- `f s || f (one-shorter suffix) || ...`: used to give `*` its
any-suffix glob semantics. -/
def anySuffix (f : List Char → Bool) : List Char → Bool
  | [] => f []
  | c :: cs => f (c :: cs) || anySuffix f cs

/-- Glob matching with `*` wildcards and literal characters, the fragment of
`fnmatch` semantics that the external `tree -I` applies to each entry name
(the generated patterns contain no other metacharacters). -/
def globMatch : List Char → List Char → Bool
  | [], s => s.isEmpty
  | c :: ps, s =>
    if c = '*' then anySuffix (globMatch ps) s
    else
      match s with
      | [] => false
      | d :: ds => c = d && globMatch ps ds

/-- Whether the external tree tool, invoked with the generated ignore
pattern, excludes an entry with the given name (case-sensitive matching
against each pattern). -/
def tree_ignore_excludes (F : Filters) (name : List Char) : Bool :=
  (build_tree_ignore_pattern F).any (fun pat => globMatch pat name)

/-- `_permission_flag_from_output`: the external path reports a permission
error when the tool's combined output contains one of two fixed
substrings. -/
def permission_flag_from_output (text : List Char) : Bool :=
  decide ("Permission denied".data <:+: text) ||
    decide ("Operation not permitted".data <:+: text)

/-- The dispatch condition of `write_tree_txt`:
`tree_bin = shutil.which("tree") if use_tree else None` followed by
`if tree_bin and not active_filters.excluded_words`. -/
def uses_external_tree (use_tree treeAvail : Bool) (F : Filters) : Bool :=
  (use_tree && treeAvail) && F.excluded_words.isEmpty

/-- A directory entry as seen by the in-process tree walk of
`write_tree_txt`, together with the filesystem outcome its handling hits.
`statFail` is an entry on which `entry.is_dir(follow_symlinks=False)` raises
an `OSError`; the `vanished` field records whether the underlying error was
a disappearance rather than a permission denial — the source's single
`except OSError` handler does not inspect it.  `dirDenied` / `dirNotFound`
are directories whose own `os.scandir` raises `PermissionError` /
`FileNotFoundError`. -/
inductive TEntry where
  | file (name : List Char)
  | symlink (name : List Char)
  | statFail (name : List Char) (vanished : Bool)
  | dir (name : List Char) (children : List TEntry)
  | dirDenied (name : List Char)
  | dirNotFound (name : List Char)

def TEntry.name : TEntry → List Char
  | .file n => n
  | .symlink n => n
  | .statFail n _ => n
  | .dir n _ => n
  | .dirDenied n => n
  | .dirNotFound n => n

/-- The `is_dir` classification of the walk: symlinks are never directories,
and an entry whose stat fails is treated as a non-directory
(`safe_is_dir` returns `False` after catching the error). -/
def TEntry.isDir : TEntry → Bool
  | .dir _ _ => true
  | .dirDenied _ => true
  | .dirNotFound _ => true
  | _ => false

/-- Whether handling this entry makes `safe_is_dir` set the permission
flag. -/
def TEntry.statFlag : TEntry → Bool
  | .statFail _ _ => true
  | _ => false

/-- The filtering step of the walk: directories go through
`is_excluded_dirname`, everything else through `is_excluded_filename`;
surviving entries are kept. -/
def keepEntry (F : Filters) (e : TEntry) : Bool :=
  if e.isDir then !(is_excluded_dirname e.name F)
  else !(is_excluded_filename e.name F)

/-- The sort key comparison `(not is_dir, name.lower())` of the walk. -/
def entryLE (a b : TEntry) : Bool :=
  let ka := !a.isDir
  let kb := !b.isDir
  if ka = kb then lexLE (pyLower a.name) (pyLower b.name) else (!ka && kb)

/-- Filter then stable-sort the listing of one directory, as the walk
does. -/
def sortEntries (F : Filters) (cs : List TEntry) : List TEntry :=
  isort entryLE (cs.filter (keepEntry F))

def connLast : List Char := "\\-- ".data

def connMid : List Char := "|-- ".data

def padLast : List Char := "    ".data

def padMid : List Char := "|   ".data

mutual

/-- `walk_dir` after a successful `os.scandir`: classify entries (collecting
the permission flag of failed stats), filter, sort, then render the
survivors. -/
def walkChildren (F : Filters) (depth : Nat) (cs : List TEntry)
    (pfx : List Char) (lvl : Nat) : List (List Char) × Bool :=
  let flagC := cs.any TEntry.statFlag
  let r := renderKids F depth (sortEntries F cs) pfx lvl
  (r.1, flagC || r.2)
termination_by (sizeOf cs, 1)
decreasing_by
  have hins : ∀ (a : TEntry) (l : List TEntry),
      sizeOf (insertS entryLE a l) = 1 + sizeOf a + sizeOf l := by
    intro a l
    induction l with
    | nil => simp [insertS]
    | cons b bs ih =>
      rw [insertS]
      split
      · simp
      · simp [ih]
        omega
  have hiso : ∀ (l : List TEntry), sizeOf (isort entryLE l) = sizeOf l := by
    intro l
    induction l with
    | nil => rfl
    | cons a as ih => rw [isort, hins, ih]; simp
  have hfil : ∀ (l : List TEntry),
      sizeOf (l.filter (keepEntry F)) ≤ sizeOf l := by
    intro l
    induction l with
    | nil => simp
    | cons a as ih =>
      rw [List.filter_cons]
      split
      · simp; omega
      · simp; omega
  have hle : sizeOf (sortEntries F cs) ≤ sizeOf cs := by
    rw [sortEntries, hiso]
    exact hfil cs
  rcases lt_or_eq_of_le hle with h | h
  · exact Prod.Lex.left _ _ h
  · rw [h]
    exact Prod.Lex.right _ (by omega)

/-- The `for idx, ... in enumerate(filtered)` loop of `walk_dir`: emit the
connector line for each surviving entry and recurse into directories that
have not reached the depth limit. -/
def renderKids (F : Filters) (depth : Nat) (ks : List TEntry)
    (pfx : List Char) (lvl : Nat) : List (List Char) × Bool :=
  match ks with
  | [] => ([], false)
  | k :: rest =>
    let last := rest.isEmpty
    let line := pfx ++ (if last then connLast else connMid) ++ k.name
    let sub :=
      if k.isDir && (depth == 0 || decide (lvl < depth)) then
        expandEntry F depth k (pfx ++ (if last then padLast else padMid)) (lvl + 1)
      else ([], false)
    let r := renderKids F depth rest pfx lvl
    (line :: (sub.1 ++ r.1), sub.2 || r.2)
termination_by (sizeOf ks, 0)
decreasing_by
  all_goals (apply Prod.Lex.left; simp <;> omega)

/-- One `walk_dir(path, prefix, level)` call on a directory entry: a
permission error while listing sets the flag and skips the subtree, a
vanished directory is skipped silently. -/
def expandEntry (F : Filters) (depth : Nat) (e : TEntry)
    (pfx : List Char) (lvl : Nat) : List (List Char) × Bool :=
  match e with
  | .dir _ cs => walkChildren F depth cs pfx lvl
  | .dirDenied _ => ([], true)
  | .dirNotFound _ => ([], false)
  | _ => ([], false)
termination_by (sizeOf e, 0)
decreasing_by
  all_goals (apply Prod.Lex.left; simp <;> omega)

end

/-- The in-process branch of `write_tree_txt`: the first output line is the
root path, then `walk_dir(root, "", 1)` appends one line per surviving
entry. -/
def treeTxt (F : Filters) (depth : Nat) (rootPath : List Char)
    (root : TEntry) : List (List Char) × Bool :=
  let r := expandEntry F depth root [] 1
  (rootPath :: r.1, r.2)

/-- `"\n".join(lines) + "\n"`, the file content written by the in-process
branch. -/
def joinLines (lines : List (List Char)) : List Char :=
  List.intercalate ['\n'] lines ++ ['\n']

/-- `write_tree_txt`: dispatch between the external tree tool (whose
captured output is `toolStdout` and whose permission flag is scraped from
that output) and the in-process walk. -/
def write_tree_txt (use_tree treeAvail : Bool) (toolStdout : List Char)
    (F : Filters) (depth : Nat) (rootPath : List Char) (root : TEntry) :
    List Char × Bool :=
  if uses_external_tree use_tree treeAvail F then
    (toolStdout, permission_flag_from_output toolStdout)
  else
    let r := treeTxt F depth rootPath root
    (joinLines r.1, r.2)

mutual

/-- Truncation of a tree-walk entry to `r` remaining expansion levels: at
level zero a directory keeps its name and classification but loses its
children (and its listing outcome); deeper levels recurse.  Used to state
the depth-limit claim. -/
def truncE : Nat → TEntry → TEntry
  | r, .dir n cs => if r = 0 then .dir n [] else .dir n (truncL (r - 1) cs)
  | r, .dirDenied n => if r = 0 then .dir n [] else .dirDenied n
  | r, .dirNotFound n => if r = 0 then .dir n [] else .dirNotFound n
  | _, .file n => .file n
  | _, .symlink n => .symlink n
  | _, .statFail n v => .statFail n v

def truncL (r : Nat) : List TEntry → List TEntry
  | [] => []
  | e :: es => truncE r e :: truncL r es

end

mutual

/-- Expansion height of an entry: how many remaining levels make truncation
the identity. -/
def entH : TEntry → Nat
  | .dir _ cs => 1 + entHL cs
  | .dirDenied _ => 1
  | .dirNotFound _ => 1
  | _ => 0

def entHL : List TEntry → Nat
  | [] => 0
  | e :: es => max (entH e) (entHL es)

end

/-- The stat outcome of one file during the index walk. -/
inductive IStat where
  | ok (size : Nat) (mtime : ℚ)
  | vanished
  | denied
deriving DecidableEq

/-- A directory entry as seen by `write_index_tsv`'s `os.walk` (symlinks do
not occur in the claims about this walk).  `dirDenied` / `dirNotFound` are
directories whose `os.scandir` inside `os.walk` raises, reported through
`onerror`. -/
inductive IEntry where
  | file (name : List Char) (st : IStat)
  | dir (name : List Char) (children : List IEntry)
  | dirDenied (name : List Char)
  | dirNotFound (name : List Char)

def IEntry.name : IEntry → List Char
  | .file n _ => n
  | .dir n _ => n
  | .dirDenied n => n
  | .dirNotFound n => n

/-- `os.walk`'s classification: which entries end up in `dirnames`. -/
def IEntry.isDirE : IEntry → Bool
  | .dir _ _ => true
  | .dirDenied _ => true
  | .dirNotFound _ => true
  | _ => false

/-- Decimal digits of a natural number (fuel-based, as `Nat.toDigits`;
the fuel `n + 1` always suffices). -/
def natDigitsAux : Nat → Nat → List Char
  | 0, _ => []
  | fuel + 1, n =>
    if n < 10 then [Nat.digitChar n]
    else natDigitsAux fuel (n / 10) ++ [Nat.digitChar (n % 10)]

def natDigits (n : Nat) : List Char := natDigitsAux (n + 1) n

/-- Decimal rendering of an integer, as Python str() of an int. -/
def intDigits (i : Int) : List Char :=
  if i < 0 then '-' :: natDigits i.natAbs else natDigits i.toNat

/-- Python `int()` on a (rational-valued) float: truncation toward zero. -/
def pyInt (q : ℚ) : Int := Int.tdiv q.num (Int.ofNat q.den)

/-- The TSV row written for one surviving, successfully stat-ed file:
`f"{safe_path_for_tsv(str(full))}\t{st.st_size}\t{int(st.st_mtime)}\n"`. -/
def tsvLine (full : List Char) (size : Nat) (mtime : ℚ) : List Char :=
  safe_path_for_tsv full ++ '\t' :: natDigits size ++
    '\t' :: intDigits (pyInt mtime) ++ ['\n']

/-- The body of the per-file loop of `write_index_tsv`: excluded names are
skipped before stat; a vanished file is skipped silently; a permission
error on stat is skipped and sets the flag; otherwise one row is written.
`full = Path(dirpath) / name`. -/
def fileContrib (F : Filters) (dirpath : List Char) (e : IEntry) :
    List (List Char) × Bool :=
  match e with
  | .file n st =>
    if is_excluded_filename n F then ([], false)
    else
      match st with
      | .ok size mtime => ([tsvLine (dirpath ++ '/' :: n) size mtime], false)
      | .vanished => ([], false)
      | .denied => ([], true)
  | _ => ([], false)

mutual

/-- One `os.walk` step of `write_index_tsv` at a successfully listed
directory: prune excluded directory names from `dirnames`, write rows for
the surviving files, then walk the kept subdirectories in order. -/
def indexDirBody (F : Filters) (dirpath : List Char) (cs : List IEntry) :
    List (List Char) × Bool :=
  let fparts := (cs.filter (fun e => !e.isDirE)).map (fileContrib F dirpath)
  let kept := (cs.filter IEntry.isDirE).filter
    (fun d => !(is_excluded_dirname d.name F))
  let r := indexDirsWalk F dirpath kept
  ((fparts.map Prod.fst).flatten ++ r.1, (fparts.map Prod.snd).any id || r.2)
termination_by (sizeOf cs, 1)
decreasing_by
  have hfil : ∀ (p : IEntry → Bool) (l : List IEntry),
      sizeOf (l.filter p) ≤ sizeOf l := by
    intro p l
    induction l with
    | nil => simp
    | cons a as ih =>
      rw [List.filter_cons]
      split
      · simp; omega
      · simp; omega
  have hle : sizeOf ((cs.filter IEntry.isDirE).filter
      (fun d => !(is_excluded_dirname d.name F))) ≤ sizeOf cs :=
    le_trans (hfil _ _) (hfil _ _)
  rcases lt_or_eq_of_le hle with h | h
  · exact Prod.Lex.left _ _ h
  · rw [h]
    exact Prod.Lex.right _ (by omega)

/-- The `os.walk` recursion over the pruned `dirnames`, in order. -/
def indexDirsWalk (F : Filters) (dirpath : List Char) (ds : List IEntry) :
    List (List Char) × Bool :=
  match ds with
  | [] => ([], false)
  | d :: rest =>
    let rd := indexVisit F dirpath d
    let rr := indexDirsWalk F dirpath rest
    (rd.1 ++ rr.1, rd.2 || rr.2)
termination_by (sizeOf ds, 0)
decreasing_by
  all_goals (apply Prod.Lex.left; simp <;> omega)

/-- Visiting one kept subdirectory: a directory whose listing raises
`PermissionError` contributes only the flag (via `onerror`); one that
vanished contributes nothing. -/
def indexVisit (F : Filters) (dirpath : List Char) (d : IEntry) :
    List (List Char) × Bool :=
  match d with
  | .dir n cs => indexDirBody F (dirpath ++ '/' :: n) cs
  | .dirDenied _ => ([], true)
  | .dirNotFound _ => ([], false)
  | _ => ([], false)
termination_by (sizeOf d, 0)
decreasing_by
  all_goals (apply Prod.Lex.left; simp <;> omega)

end

/-- `write_index_tsv`: rows written (in order) and the permission flag.  The
returned count of the source equals the number of rows.  The root directory
itself is never name-filtered (`os.walk` starts inside it). -/
def write_index_tsv (F : Filters) (rootPath : List Char) (root : IEntry) :
    List (List Char) × Bool :=
  match root with
  | .dir _ cs => indexDirBody F rootPath cs
  | .dirDenied _ => ([], true)
  | .dirNotFound _ => ([], false)
  | _ => ([], false)

end CloudTree

namespace CloudTree

theorem char_toNat_ofNat_valid {n : Nat} (h : n < 55296) : (Char.ofNat n).toNat = n := by
  have hv : Nat.isValidChar n := Or.inl h
  simp [Char.ofNat, hv]
  rfl

theorem char_toLower_idem (c : Char) : c.toLower.toLower = c.toLower := by
  unfold Char.toLower
  by_cases h : c.toNat ≥ 65 ∧ c.toNat ≤ 90
  · simp only [h, and_true, true_and, if_true]
    have h55 : c.toNat + 32 < 55296 := by
      have := h.2; omega
    rw [if_neg]
    rw [char_toNat_ofNat_valid h55]
    omega
  · simp only [if_neg h]

theorem pyLower_idem (l : List Char) : pyLower (pyLower l) = pyLower l := by
  simp [pyLower, List.map_map, Function.comp_def, char_toLower_idem]

theorem takeWhile_all_append {α : Type} (p : α → Bool) (l₁ l₂ : List α)
    (h : ∀ x ∈ l₁, p x = true) :
    (l₁ ++ l₂).takeWhile p = l₁ ++ l₂.takeWhile p := by
  induction l₁ with
  | nil => simp
  | cons a as ih =>
    have ha : p a = true := h a (by simp)
    have ih' := ih (fun x hx => h x (by simp [hx]))
    simp [List.takeWhile_cons, ha, ih']

theorem dropWhile_head_not {α : Type} (p : α → Bool) (l : List α) (d : α)
    (rest : List α) (h : l.dropWhile p = d :: rest) : p d = false := by
  induction l with
  | nil => simp at h
  | cons a as ih =>
    rw [List.dropWhile_cons] at h
    by_cases hpa : p a = true
    · rw [if_pos hpa] at h
      exact ih h
    · rw [if_neg hpa] at h
      cases h
      simpa using hpa

/-- Characterisation of `pathExt` (the code's `Path(name).suffix` semantics):
a nonempty extension `e` arises exactly from a decomposition
`name = stem ++ '.' :: e` with a nonempty stem and no dot inside `e`. -/
theorem pathExt_eq_iff (n e : List Char) (he : e ≠ []) :
    pathExt n = e ↔ ∃ stem, stem ≠ [] ∧ ('.' : Char) ∉ e ∧ n = stem ++ '.' :: e := by
  constructor
  · intro hpe
    unfold pathExt at hpe
    by_cases hlen :
        ((n.reverse.takeWhile (fun c => c ≠ '.')).reverse).length + 1 < n.length
    · simp only [if_pos hlen] at hpe
      rw [hpe] at hlen
      have htw : n.reverse.takeWhile (fun c => c ≠ '.') = e.reverse := by
        rw [← hpe]; simp
      have hsplit := List.takeWhile_append_dropWhile (fun c => (c ≠ '.' : Bool)) n.reverse
      rw [htw] at hsplit
      cases hdw : n.reverse.dropWhile (fun c => c ≠ '.') with
      | nil =>
        exfalso
        rw [hdw, List.append_nil] at hsplit
        have : e.length = n.length := by
          have := congrArg List.length hsplit
          simpa using this
        omega
      | cons d rest =>
        rw [hdw] at hsplit
        have hdot : d = '.' := by
          have := dropWhile_head_not (fun c => (c ≠ '.' : Bool)) n.reverse d rest hdw
          simpa using this
        refine ⟨rest.reverse, ?_, ?_, ?_⟩
        · intro h0
          have hrest : rest = [] := by simpa using congrArg List.reverse h0
          have : n.reverse = e.reverse ++ ['.'] := by
            rw [← hsplit, hdot, hrest]
          have hn : n.length = e.length + 1 := by
            have := congrArg List.length this
            simpa using this
          omega
        · intro hmem
          have hmem' : ('.' : Char) ∈ e.reverse := by simpa using hmem
          have := List.mem_takeWhile_imp (htw ▸ hmem')
          simp at this
        · have hrev : n.reverse = e.reverse ++ '.' :: rest := by
            rw [← hsplit, hdot]
          have := congrArg List.reverse hrev
          simpa using this
    · simp only [if_neg hlen] at hpe
      exact absurd hpe.symm he
  · rintro ⟨stem, hstem, hdot, rfl⟩
    unfold pathExt
    have hrev : (stem ++ '.' :: e).reverse = e.reverse ++ '.' :: stem.reverse := by
      simp
    rw [hrev]
    have htw : (e.reverse ++ '.' :: stem.reverse).takeWhile (fun c => c ≠ '.') =
        e.reverse := by
      rw [takeWhile_all_append]
      · simp [List.takeWhile_cons]
      · intro x hx
        simp only [decide_eq_true_eq, ne_eq]
        intro hxeq
        exact hdot (by simpa [hxeq] using List.mem_reverse.mp hx)
    rw [htw]
    simp only [List.reverse_reverse]
    rw [if_pos]
    simp only [List.length_append, List.length_cons]
    have : 0 < stem.length := List.length_pos.mpr hstem
    omega

theorem word_in_text_eq (words : List (List Char)) (t : List Char) :
    word_in_text words t = true ↔ ∃ w ∈ words, w <:+: pyLower t := by
  unfold word_in_text
  by_cases h : words = []
  · subst h; simp
  · rw [if_neg h]
    simp [List.any_eq_true]

theorem dirname_excluded_iff (name : List Char) (F : Filters) :
    is_excluded_dirname name F = true ↔
      pyLower (pyStrip name) ∈ F.excluded_dirnames ∨
      (∃ p ∈ F.excluded_dir_prefixes, p <+: pyLower (pyStrip name)) ∨
      (∃ w ∈ F.excluded_words, w <:+: pyLower (pyStrip name)) := by
  unfold is_excluded_dirname
  dsimp only
  split_ifs with h1 h2
  · exact iff_of_true rfl (Or.inl h1)
  · rw [List.any_eq_true] at h2
    obtain ⟨p, hp, hpre⟩ := h2
    rw [List.isPrefixOf_iff_prefix] at hpre
    exact iff_of_true rfl (Or.inr (Or.inl ⟨p, hp, hpre⟩))
  · rw [word_in_text_eq, pyLower_idem]
    constructor
    · intro h
      exact Or.inr (Or.inr h)
    · rintro (h | ⟨p, hp, hpre⟩ | h)
      · exact absurd h h1
      · have hb : p.isPrefixOf (pyLower (pyStrip name)) = true :=
          List.isPrefixOf_iff_prefix.mpr hpre
        exact absurd (List.any_eq_true.mpr ⟨p, hp, hb⟩) h2
      · exact h

theorem filename_excluded_iff (name : List Char) (F : Filters) :
    is_excluded_filename name F = true ↔
      pyLower (pyStrip name) ∈ F.excluded_basenames ∨
      (∃ stem e, stem ≠ [] ∧ e ≠ [] ∧ ('.' : Char) ∉ e ∧
        name = stem ++ '.' :: e ∧ pyLower e ∈ F.excluded_exts) ∨
      (∃ w ∈ F.excluded_words, w <:+: pyLower (pyStrip name)) := by
  unfold is_excluded_filename
  dsimp only
  split_ifs with h1 h2
  · exact iff_of_true rfl (Or.inl h1)
  · simp only [Bool.and_eq_true, decide_eq_true_eq] at h2
    obtain ⟨hne, hmem⟩ := h2
    have hpe : pathExt name ≠ [] := by
      intro h0
      rw [h0] at hne
      simp [pyLower] at hne
    obtain ⟨stem, hstem, hdot, heq⟩ := (pathExt_eq_iff name (pathExt name) hpe).mp rfl
    exact iff_of_true rfl
      (Or.inr (Or.inl ⟨stem, pathExt name, hstem, hpe, hdot, heq, hmem⟩))
  · rw [word_in_text_eq, pyLower_idem]
    constructor
    · intro h
      exact Or.inr (Or.inr h)
    · rintro (h | ⟨stem, e, hstem, hee, hdot, heq, hmem⟩ | h)
      · exact absurd h h1
      · exfalso
        have hpe : pathExt name = e :=
          (pathExt_eq_iff name e hee).mpr ⟨stem, hstem, hdot, heq⟩
        apply h2
        simp only [Bool.and_eq_true, decide_eq_true_eq]
        refine ⟨?_, by rw [hpe]; exact hmem⟩
        rw [hpe]
        simp [pyLower, hee]
      · exact h

/-- C3: `is_excluded_dirname` returns true exactly when the lowercased
trimmed name is one of the excluded directory names, or starts with one of
the excluded directory-name prefixes, or contains one of the excluded words
as a substring; the rules are OR-combined and all tests are on the
lowercased, trimmed name. -/
theorem dirname_exclusion_characterisation (name : List Char) (F : Filters) :
    is_excluded_dirname name F = true ↔
      pyLower (pyStrip name) ∈ F.excluded_dirnames ∨
      (∃ p ∈ F.excluded_dir_prefixes, p <+: pyLower (pyStrip name)) ∨
      (∃ w ∈ F.excluded_words, w <:+: pyLower (pyStrip name)) :=
  dirname_excluded_iff name F

/-- C1 (amended): `is_excluded_filename` returns true exactly when the
lowercased trimmed name is an excluded basename, or the name decomposes as
`stem ++ "." ++ e` with a nonempty stem, a nonempty dot-free `e`, and
lowercased `e` among the excluded extensions, or the lowercased trimmed name
contains an excluded word.  (The dot introducing the extension must be
neither the first nor the last character of the name: a dotfile such as
`.obj` has no extension.) -/
theorem filename_exclusion_characterisation (name : List Char) (F : Filters) :
    is_excluded_filename name F = true ↔
      pyLower (pyStrip name) ∈ F.excluded_basenames ∨
      (∃ stem e, stem ≠ [] ∧ e ≠ [] ∧ ('.' : Char) ∉ e ∧
        name = stem ++ '.' :: e ∧ pyLower e ∈ F.excluded_exts) ∨
      (∃ w ∈ F.excluded_words, w <:+: pyLower (pyStrip name)) :=
  filename_excluded_iff name F

/-- C1 counterexample: under the claim's literal reading (extension = suffix
after the last dot whenever a dot occurs), the dotfile `.obj` has extension
`obj`, which is in the default exclusion set, so the claim predicts
exclusion; the code computes no extension for `.obj` and keeps it. -/
theorem filename_exclusion_dotfile_counterexample :
    claimed_ext ".obj".data ≠ [] ∧
    pyLower (claimed_ext ".obj".data) ∈ default_filters.excluded_exts ∧
    is_excluded_filename ".obj".data default_filters = false := by
  decide

/-- C2 (amended): `build_filters` applies the default configuration when its
arguments are left at `None`; but `main` of `cloud_tree.py` always passes the
parsed extension set, so a command-line run without an extension list runs
with an empty extension exclusion set (the basename, dirname and
directory-prefix defaults still apply, and the word set is empty). -/
theorem default_filter_configuration :
    build_filters none none none none none =
      Filters.mk DEFAULT_EXCLUDED_EXTS DEFAULT_EXCLUDED_BASENAMES
        DEFAULT_EXCLUDED_DIRNAMES DEFAULT_EXCLUDED_DIR_PREFIXES [] ∧
    main_filters none none =
      Filters.mk [] DEFAULT_EXCLUDED_BASENAMES
        DEFAULT_EXCLUDED_DIRNAMES DEFAULT_EXCLUDED_DIR_PREFIXES [] := by
  constructor
  · rfl
  · rfl

/-- C2 counterexample: a command-line run without an extension list does not
apply the default extension set — `obj` is a default exclusion but is absent
from the filter set such a run uses. -/
theorem cli_run_loses_default_exts :
    "obj".data ∈ DEFAULT_EXCLUDED_EXTS ∧
    "obj".data ∉ (main_filters none none).excluded_exts := by
  decide

end CloudTree
namespace CloudTree

theorem mem_insertS {α : Type} (le : α → α → Bool) (a x : α) (l : List α) :
    x ∈ insertS le a l ↔ x = a ∨ x ∈ l := by
  induction l with
  | nil => simp [insertS]
  | cons b bs ih =>
    rw [insertS]
    split
    · simp
    · simp [ih]
      tauto

theorem mem_isort {α : Type} (le : α → α → Bool) (x : α) (l : List α) :
    x ∈ isort le l ↔ x ∈ l := by
  induction l with
  | nil => simp [isort]
  | cons a as ih =>
    rw [isort, mem_insertS]
    simp [ih]

theorem pairwise_insertS {α : Type} (le : α → α → Bool)
    (htot : ∀ a b, le a b = true ∨ le b a = true)
    (htr : ∀ a b c, le a b = true → le b c = true → le a c = true)
    (a : α) (l : List α) (h : l.Pairwise (fun x y => le x y = true)) :
    (insertS le a l).Pairwise (fun x y => le x y = true) := by
  induction l with
  | nil => simp [insertS]
  | cons b bs ih =>
    rw [insertS]
    rw [List.pairwise_cons] at h
    split
    · rename_i hab
      rw [List.pairwise_cons]
      refine ⟨?_, List.pairwise_cons.mpr h⟩
      intro x hx
      rcases List.mem_cons.mp hx with hxb | hxbs
      · rw [hxb]; exact hab
      · exact htr a b x hab (h.1 x hxbs)
    · rename_i hnab
      have hba : le b a = true := by
        rcases htot a b with h1 | h1
        · exact absurd h1 hnab
        · exact h1
      rw [List.pairwise_cons]
      refine ⟨?_, ih h.2⟩
      intro x hx
      rcases (mem_insertS le a x bs).mp hx with hxa | hxbs
      · rw [hxa]; exact hba
      · exact h.1 x hxbs

theorem pairwise_isort {α : Type} (le : α → α → Bool)
    (htot : ∀ a b, le a b = true ∨ le b a = true)
    (htr : ∀ a b c, le a b = true → le b c = true → le a c = true)
    (l : List α) : (isort le l).Pairwise (fun x y => le x y = true) := by
  induction l with
  | nil => simp [isort]
  | cons a as ih => exact pairwise_insertS le htot htr a (isort le as) ih

theorem lexLE_total (l₁ l₂ : List Char) : lexLE l₁ l₂ = true ∨ lexLE l₂ l₁ = true := by
  induction l₁ generalizing l₂ with
  | nil => left; rw [lexLE]
  | cons a as ih =>
    cases l₂ with
    | nil => right; rw [lexLE]
    | cons b bs =>
      rw [lexLE, lexLE]
      by_cases hab : a = b
      · subst hab
        simp only [if_pos rfl]
        exact ih bs
      · rw [if_neg hab, if_neg (fun h => hab h.symm)]
        rcases lt_trichotomy a b with h | h | h
        · left; exact decide_eq_true h
        · exact absurd h hab
        · right; exact decide_eq_true h

theorem lexLE_trans (l₁ l₂ l₃ : List Char) (h1 : lexLE l₁ l₂ = true)
    (h2 : lexLE l₂ l₃ = true) : lexLE l₁ l₃ = true := by
  induction l₁ generalizing l₂ l₃ with
  | nil => rw [lexLE]
  | cons a as ih =>
    cases l₂ with
    | nil => rw [lexLE] at h1; exact absurd h1 (by simp)
    | cons b bs =>
      cases l₃ with
      | nil => rw [lexLE] at h2; exact absurd h2 (by simp)
      | cons c cs =>
        rw [lexLE] at h1 h2 ⊢
        by_cases hab : a = b <;> by_cases hbc : b = c
        · subst hab; subst hbc
          rw [if_pos rfl] at h1 h2 ⊢
          exact ih bs cs h1 h2
        · subst hab
          rw [if_pos rfl] at h1
          rw [if_neg hbc] at h2 ⊢
          exact h2
        · subst hbc
          rw [if_neg hab] at h1 ⊢
          exact h1
        · rw [if_neg hab] at h1
          rw [if_neg hbc] at h2
          have hac : a < c := lt_trans (of_decide_eq_true h1) (of_decide_eq_true h2)
          have hnac : ¬ a = c := by
            intro h
            rw [h] at hac
            exact lt_irrefl c hac
          rw [if_neg hnac]
          exact decide_eq_true hac

theorem entryLE_total (a b : TEntry) : entryLE a b = true ∨ entryLE b a = true := by
  unfold entryLE
  dsimp only
  by_cases h : (!a.isDir) = (!b.isDir)
  · rw [if_pos h, if_pos h.symm]
    exact lexLE_total _ _
  · rw [if_neg h, if_neg (fun hh => h hh.symm)]
    cases ha : a.isDir <;> cases hb : b.isDir <;> simp [ha, hb] at h ⊢

theorem entryLE_trans (a b c : TEntry) (h1 : entryLE a b = true)
    (h2 : entryLE b c = true) : entryLE a c = true := by
  unfold entryLE at h1 h2 ⊢
  dsimp only at h1 h2 ⊢
  by_cases hab : (!a.isDir) = (!b.isDir) <;> by_cases hbc : (!b.isDir) = (!c.isDir)
  · rw [if_pos hab] at h1
    rw [if_pos hbc] at h2
    rw [if_pos (hab.trans hbc)]
    exact lexLE_trans _ _ _ h1 h2
  · rw [if_neg (fun h => hbc (hab.symm.trans h))]
    rw [if_neg hbc] at h2
    rw [hab]
    exact h2
  · rw [if_neg (fun h => hab (h.trans hbc.symm))]
    rw [if_neg hab] at h1
    rw [← hbc]
    exact h1
  · cases ha : a.isDir <;> cases hb : b.isDir <;> cases hc : c.isDir <;>
      simp [ha, hb, hc] at hab hbc h1 h2 ⊢

end CloudTree
namespace CloudTree

theorem entryLE_imp_order (a b : TEntry) (h : entryLE a b = true) :
    (b.isDir = true → a.isDir = true) ∧
    (a.isDir = b.isDir → lexLE (pyLower a.name) (pyLower b.name) = true) := by
  unfold entryLE at h
  dsimp only at h
  by_cases hk : (!a.isDir) = (!b.isDir)
  · have heq : a.isDir = b.isDir := by
      cases ha : a.isDir <;> cases hb : b.isDir <;> simp [ha, hb] at hk ⊢
    rw [if_pos hk] at h
    exact ⟨fun hb => heq.trans hb, fun _ => h⟩
  · rw [if_neg hk] at h
    simp only [Bool.not_not, Bool.and_eq_true, Bool.not_eq_true'] at h
    constructor
    · intro hb
      rw [hb] at h
      simp at h
    · intro heq
      exfalso
      exact hk (by rw [heq])

/-- C5: the first line of the in-process tree output is the root path; the
surviving entries of each directory are arranged with every directory before
every file and each group in case-insensitive name order; symlinks are
classified as non-directories; each entry's line uses the connector `|-- `
for non-last siblings and `\-- ` for the last sibling. -/
theorem tree_output_order (F : Filters) (depth : Nat) (rootPath : List Char)
    (root : TEntry) :
    (treeTxt F depth rootPath root).1.head? = some rootPath ∧
    (∀ cs : List TEntry, (sortEntries F cs).Pairwise
      (fun a b => (b.isDir = true → a.isDir = true) ∧
        (a.isDir = b.isDir → lexLE (pyLower a.name) (pyLower b.name) = true))) ∧
    (∀ n : List Char, TEntry.isDir (.symlink n) = false) ∧
    (∀ (k : TEntry) (rest : List TEntry) (pfx : List Char) (lvl : Nat),
      (renderKids F depth (k :: rest) pfx lvl).1.head? =
        some (pfx ++ (if rest.isEmpty then connLast else connMid) ++ k.name)) := by
  refine ⟨by simp [treeTxt], ?_, fun n => rfl, ?_⟩
  · intro cs
    rw [sortEntries]
    exact (pairwise_isort entryLE entryLE_total entryLE_trans
      (cs.filter (keepEntry F))).imp (fun h => entryLE_imp_order _ _ h)
  · intro k rest pfx lvl
    rw [renderKids]
    simp

end CloudTree
namespace CloudTree

theorem truncL_eq_map (r : Nat) (cs : List TEntry) :
    truncL r cs = cs.map (truncE r) := by
  induction cs with
  | nil => rfl
  | cons e es ih => rw [truncL, ih]; rfl

theorem truncE_name (r : Nat) (e : TEntry) : (truncE r e).name = e.name := by
  cases e <;> rw [truncE] <;> first | rfl | (split <;> rfl)

theorem truncE_isDir (r : Nat) (e : TEntry) : (truncE r e).isDir = e.isDir := by
  cases e <;> rw [truncE] <;> first | rfl | (split <;> rfl)

theorem truncE_statFlag (r : Nat) (e : TEntry) :
    (truncE r e).statFlag = e.statFlag := by
  cases e <;> rw [truncE] <;> first | rfl | (split <;> rfl)

theorem keepEntry_truncE (F : Filters) (r : Nat) (e : TEntry) :
    keepEntry F (truncE r e) = keepEntry F e := by
  rw [keepEntry, keepEntry, truncE_name, truncE_isDir]

theorem entryLE_truncE (r : Nat) (a b : TEntry) :
    entryLE (truncE r a) (truncE r b) = entryLE a b := by
  simp only [entryLE, truncE_name, truncE_isDir]

theorem insertS_map_truncE (r : Nat) (a : TEntry) (l : List TEntry) :
    insertS entryLE (truncE r a) (l.map (truncE r)) =
      (insertS entryLE a l).map (truncE r) := by
  induction l with
  | nil => rfl
  | cons b bs ih =>
    rw [List.map_cons, insertS, insertS, entryLE_truncE]
    split
    · rfl
    · rw [List.map_cons, ih]

theorem isort_map_truncE (r : Nat) (l : List TEntry) :
    isort entryLE (l.map (truncE r)) = (isort entryLE l).map (truncE r) := by
  induction l with
  | nil => rfl
  | cons a as ih => rw [List.map_cons, isort, isort, ih, insertS_map_truncE]

theorem sortEntries_truncL (F : Filters) (r : Nat) (cs : List TEntry) :
    sortEntries F (truncL r cs) = truncL r (sortEntries F cs) := by
  rw [truncL_eq_map, truncL_eq_map, sortEntries, sortEntries]
  rw [List.filter_map]
  have : (keepEntry F ∘ truncE r) = keepEntry F := by
    funext e
    exact keepEntry_truncE F r e
  rw [this, isort_map_truncE]

theorem any_statFlag_truncL (r : Nat) (cs : List TEntry) :
    (truncL r cs).any TEntry.statFlag = cs.any TEntry.statFlag := by
  induction cs with
  | nil => rw [truncL]
  | cons e es ih =>
    rw [truncL, List.any_cons, List.any_cons, truncE_statFlag, ih]

theorem truncL_isEmpty (r : Nat) (cs : List TEntry) :
    (truncL r cs).isEmpty = cs.isEmpty := by
  rw [truncL_eq_map]
  cases cs <;> rfl

theorem sizeOf_sortEntries_le (F : Filters) (cs : List TEntry) :
    sizeOf (sortEntries F cs) ≤ sizeOf cs := by
  have hins : ∀ (a : TEntry) (l : List TEntry),
      sizeOf (insertS entryLE a l) = 1 + sizeOf a + sizeOf l := by
    intro a l
    induction l with
    | nil => simp [insertS]
    | cons b bs ih =>
      rw [insertS]
      split
      · simp
      · simp [ih]
        omega
  have hiso : ∀ (l : List TEntry), sizeOf (isort entryLE l) = sizeOf l := by
    intro l
    induction l with
    | nil => rfl
    | cons a as ih => rw [isort, hins, ih]; simp
  have hfil : ∀ (l : List TEntry),
      sizeOf (l.filter (keepEntry F)) ≤ sizeOf l := by
    intro l
    induction l with
    | nil => simp
    | cons a as ih =>
      rw [List.filter_cons]
      split
      · simp; omega
      · simp; omega
  rw [sortEntries, hiso]
  exact hfil cs

theorem renderKids_nil (F : Filters) (depth : Nat) (pfx : List Char) (lvl : Nat) :
    renderKids F depth [] pfx lvl = ([], false) := by
  rw [renderKids]

theorem sortEntries_nil (F : Filters) : sortEntries F [] = [] := by
  rw [sortEntries]
  rfl

theorem walkChildren_nil (F : Filters) (depth : Nat) (pfx : List Char) (lvl : Nat) :
    walkChildren F depth [] pfx lvl = ([], false) := by
  rw [walkChildren, sortEntries_nil, renderKids_nil]
  rfl

theorem truncL_nil (r : Nat) : truncL r [] = [] := by
  rw [truncL]

mutual

theorem walkChildren_trunc (F : Filters) (depth : Nat) (cs : List TEntry)
    (pfx : List Char) (lvl : Nat) (h : 0 < depth) :
    walkChildren F depth cs pfx lvl =
      walkChildren F 0 (truncL (depth - lvl) cs) pfx lvl := by
  rw [walkChildren, walkChildren, sortEntries_truncL, any_statFlag_truncL]
  rw [renderKids_trunc F depth (sortEntries F cs) pfx lvl h]
termination_by (sizeOf cs, 1)
decreasing_by
  rcases lt_or_eq_of_le (sizeOf_sortEntries_le F cs) with hlt | heq
  · exact Prod.Lex.left _ _ hlt
  · rw [heq]
    exact Prod.Lex.right _ (by omega)

theorem renderKids_trunc (F : Filters) (depth : Nat) (ks : List TEntry)
    (pfx : List Char) (lvl : Nat) (h : 0 < depth) :
    renderKids F depth ks pfx lvl =
      renderKids F 0 (truncL (depth - lvl) ks) pfx lvl := by
  match ks with
  | [] => rw [truncL_nil, renderKids_nil, renderKids_nil]
  | k :: rest =>
    rw [truncL]
    rw [renderKids, renderKids]
    have hlast : (truncL (depth - lvl) rest).isEmpty = rest.isEmpty :=
      truncL_isEmpty _ rest
    have hname : (truncE (depth - lvl) k).name = k.name := truncE_name _ k
    have hrest := renderKids_trunc F depth rest pfx lvl h
    rw [hlast, hname, hrest]
    have hsub :
        (if k.isDir && (depth == 0 || decide (lvl < depth)) then
          expandEntry F depth k
            (pfx ++ (if rest.isEmpty then padLast else padMid)) (lvl + 1)
        else ([], false)) =
        (if (truncE (depth - lvl) k).isDir && ((0 : Nat) == 0 || decide (lvl < 0)) then
          expandEntry F 0 (truncE (depth - lvl) k)
            (pfx ++ (if rest.isEmpty then padLast else padMid)) (lvl + 1)
        else ([], false)) := by
      rw [truncE_isDir]
      have hd0 : (depth == 0) = false := by
        simp
        omega
      rw [hd0]
      simp only [Bool.false_or, beq_self_eq_true, Bool.true_or, Bool.and_true]
      cases hdir : k.isDir
      · simp
      · simp only [Bool.true_and]
        by_cases hlv : lvl < depth
        · have hr : depth - lvl ≠ 0 := by omega
          rw [if_pos (by simp [hlv])]
          cases k with
          | dir n cs' =>
            rw [truncE, if_neg hr]
            rw [expandEntry, expandEntry]
            rw [walkChildren_trunc F depth cs'
              (pfx ++ (if rest.isEmpty then padLast else padMid)) (lvl + 1) h]
            have : depth - (lvl + 1) = depth - lvl - 1 := by omega
            rw [this, if_pos trivial]
          | dirDenied n =>
            rw [truncE, if_neg hr, if_pos trivial, expandEntry, expandEntry]
          | dirNotFound n =>
            rw [truncE, if_neg hr, if_pos trivial, expandEntry, expandEntry]
          | file n => simp [TEntry.isDir] at hdir
          | symlink n => simp [TEntry.isDir] at hdir
          | statFail n v => simp [TEntry.isDir] at hdir
        · have hr : depth - lvl = 0 := by omega
          rw [if_neg (by simp [hlv])]
          rw [hr]
          cases k with
          | dir n cs' =>
            rw [truncE, if_pos rfl, if_pos trivial, expandEntry, walkChildren_nil]
          | dirDenied n =>
            rw [truncE, if_pos rfl, if_pos trivial, expandEntry, walkChildren_nil]
          | dirNotFound n =>
            rw [truncE, if_pos rfl, if_pos trivial, expandEntry, walkChildren_nil]
          | file n => simp [TEntry.isDir] at hdir
          | symlink n => simp [TEntry.isDir] at hdir
          | statFail n v => simp [TEntry.isDir] at hdir
    rw [hsub]
termination_by (sizeOf ks, 0)
decreasing_by
  all_goals (apply Prod.Lex.left; simp <;> omega)

end

end CloudTree
namespace CloudTree

mutual

theorem truncE_self (r : Nat) (e : TEntry) (h : entH e ≤ r) : truncE r e = e := by
  cases e with
  | dir n cs =>
    rw [entH] at h
    rw [truncE, if_neg (by omega)]
    rw [truncL_self (r - 1) cs (by omega)]
  | dirDenied n =>
    rw [entH] at h
    rw [truncE, if_neg (by omega)]
  | dirNotFound n =>
    rw [entH] at h
    rw [truncE, if_neg (by omega)]
  | file n => rw [truncE]
  | symlink n => rw [truncE]
  | statFail n v => rw [truncE]

theorem truncL_self (r : Nat) (cs : List TEntry) (h : entHL cs ≤ r) :
    truncL r cs = cs := by
  cases cs with
  | nil => rw [truncL]
  | cons e es =>
    rw [entHL] at h
    rw [truncL]
    rw [truncE_self r e (le_trans (le_max_left _ _) h)]
    rw [truncL_self r es (le_trans (le_max_right _ _) h)]

end

/-- C6: with depth limit `N > 0`, the tree walk produces exactly the output
of the unlimited walk on the tree truncated at `N` levels below the root —
entries at level `N` are listed but their children are gone; and any `N` at
least the expansion height of the root (in particular the unlimited walk,
`N = 0`) produces the full output. -/
theorem depth_limit_semantics (F : Filters) (rootPath : List Char)
    (root : TEntry) (N : Nat) :
    (0 < N → treeTxt F N rootPath root = treeTxt F 0 rootPath (truncE N root)) ∧
    (entH root ≤ N → treeTxt F N rootPath root = treeTxt F 0 rootPath root) := by
  have conj1 : 0 < N →
      treeTxt F N rootPath root = treeTxt F 0 rootPath (truncE N root) := by
    intro hN
    rw [treeTxt, treeTxt]
    have he : expandEntry F N root [] 1 = expandEntry F 0 (truncE N root) [] 1 := by
      cases root with
      | dir n cs =>
        rw [expandEntry, truncE, if_neg (by omega), expandEntry]
        exact walkChildren_trunc F N cs [] 1 hN
      | dirDenied n =>
        rw [truncE, if_neg (by omega), expandEntry, expandEntry]
      | dirNotFound n =>
        rw [truncE, if_neg (by omega), expandEntry, expandEntry]
      | file n => simp [truncE, expandEntry]
      | symlink n => simp [truncE, expandEntry]
      | statFail n v => simp [truncE, expandEntry]
    rw [he]
  refine ⟨conj1, ?_⟩
  intro hH
  rcases Nat.eq_zero_or_pos N with h0 | hpos
  · rw [h0]
  · rw [conj1 hpos, truncE_self N root hH]

end CloudTree
namespace CloudTree

/-- C6 witness: both depth-limit equivalences at a concrete two-level
tree. -/
theorem depth_limit_semantics_witness :
    (0 < 1 ∧
      treeTxt default_filters 1 "/r".data
        (.dir "/r".data [.dir "a".data [.file "x.txt".data]]) =
      treeTxt default_filters 0 "/r".data
        (truncE 1 (.dir "/r".data [.dir "a".data [.file "x.txt".data]]))) ∧
    (entH (.dir "/r".data [.dir "a".data [.file "x.txt".data]]) ≤ 5 ∧
      treeTxt default_filters 5 "/r".data
        (.dir "/r".data [.dir "a".data [.file "x.txt".data]]) =
      treeTxt default_filters 0 "/r".data
        (.dir "/r".data [.dir "a".data [.file "x.txt".data]])) :=
  ⟨⟨by norm_num,
    (depth_limit_semantics default_filters "/r".data
      (.dir "/r".data [.dir "a".data [.file "x.txt".data]]) 1).1 (by norm_num)⟩,
   ⟨by simp [entH, entHL],
    (depth_limit_semantics default_filters "/r".data
      (.dir "/r".data [.dir "a".data [.file "x.txt".data]]) 5).2
      (by simp [entH, entHL])⟩⟩

/-- C8 (amended): in the index walk, an unlistable directory contributes
only the permission flag, a vanished directory is skipped silently, an
unstatable file is omitted with the flag set and a vanished file is omitted
silently; in the tree walk the directory-listing outcomes behave the same
way, but an entry whose type-check stat raises (permission denial and
disappearance alike, the handler does not distinguish them) sets the
permission flag and is kept in the output, classified as a file. -/
theorem walk_error_handling (F : Filters) (depth : Nat)
    (n dirpath pfx : List Char) (lvl : Nat) :
    expandEntry F depth (.dirDenied n) pfx lvl = ([], true) ∧
    expandEntry F depth (.dirNotFound n) pfx lvl = ([], false) ∧
    indexVisit F dirpath (.dirDenied n) = ([], true) ∧
    indexVisit F dirpath (.dirNotFound n) = ([], false) ∧
    (is_excluded_filename n F = false →
      fileContrib F dirpath (.file n .denied) = ([], true) ∧
      fileContrib F dirpath (.file n .vanished) = ([], false)) ∧
    (is_excluded_filename n F = false → ∀ v : Bool,
      walkChildren F depth [.statFail n v] pfx lvl =
        ([pfx ++ connLast ++ n], true)) := by
  refine ⟨by rw [expandEntry], by rw [expandEntry], by rw [indexVisit],
    by rw [indexVisit], ?_, ?_⟩
  · intro h
    constructor <;> simp [fileContrib, h]
  · intro h v
    rw [walkChildren]
    have hs : sortEntries F [.statFail n v] = [.statFail n v] := by
      rw [sortEntries]
      simp [List.filter_cons, keepEntry, TEntry.isDir, TEntry.name, h, isort, insertS]
    rw [hs, renderKids, renderKids_nil]
    simp [TEntry.statFlag, TEntry.isDir, TEntry.name]

/-- C8 counterexample: an entry that vanishes between listing and the
type-check stat of the tree walk is claimed to be silently omitted with no
flag; the code instead keeps it (as a file line) and sets the permission
flag. -/
theorem statfail_entry_counterexample :
    treeTxt default_filters 0 "/r".data
      (.dir "/r".data [.statFail "ghost".data true]) =
    (["/r".data, "\\-- ghost".data], true) := by
  simp [treeTxt, expandEntry, walkChildren, renderKids, sortEntries, isort,
    insertS, entryLE, keepEntry, TEntry.isDir, TEntry.name, TEntry.statFlag,
    connLast, connMid, padLast, padMid, lexLE, pyLower, pyStrip,
    is_excluded_filename, is_excluded_dirname, word_in_text, pathExt,
    default_filters, build_filters, DEFAULT_EXCLUDED_EXTS,
    DEFAULT_EXCLUDED_BASENAMES, DEFAULT_EXCLUDED_DIRNAMES,
    DEFAULT_EXCLUDED_DIR_PREFIXES, pyIsSpace]

/-- C4: the index walk hard-prunes excluded directories: removing an
excluded directory (with its entire subtree) from a listing leaves the index
output unchanged, so no file under it — matching or not — ever appears. -/
theorem index_hard_prunes_excluded_dirs (F : Filters) (dirpath name : List Char)
    (dcs : List IEntry) (cs1 cs2 : List IEntry)
    (h : is_excluded_dirname name F = true) :
    indexDirBody F dirpath (cs1 ++ .dir name dcs :: cs2) =
      indexDirBody F dirpath (cs1 ++ cs2) := by
  rw [indexDirBody, indexDirBody]
  have hfile : (cs1 ++ IEntry.dir name dcs :: cs2).filter (fun e => !e.isDirE) =
      (cs1 ++ cs2).filter (fun e => !e.isDirE) := by
    rw [List.filter_append, List.filter_append, List.filter_cons]
    simp [IEntry.isDirE]
  have hdirs : ((cs1 ++ IEntry.dir name dcs :: cs2).filter IEntry.isDirE).filter
        (fun d => !(is_excluded_dirname d.name F)) =
      ((cs1 ++ cs2).filter IEntry.isDirE).filter
        (fun d => !(is_excluded_dirname d.name F)) := by
    simp [List.filter_append, List.filter_cons, IEntry.isDirE, IEntry.name, h]
  rw [hfile, hdirs]

end CloudTree
namespace CloudTree

theorem digitChar_isDigit (m : Nat) (h : m < 10) : (Nat.digitChar m).isDigit = true := by
  interval_cases m <;> decide

theorem natDigitsAux_digits (fuel : Nat) :
    ∀ (n : Nat) (c : Char), c ∈ natDigitsAux fuel n → c.isDigit = true := by
  induction fuel with
  | zero =>
    intro n c hc
    simp [natDigitsAux] at hc
  | succ f ih =>
    intro n c hc
    rw [natDigitsAux] at hc
    by_cases h : n < 10
    · rw [if_pos h] at hc
      rw [List.mem_singleton.mp hc]
      exact digitChar_isDigit n h
    · rw [if_neg h] at hc
      rcases List.mem_append.mp hc with h1 | h1
      · exact ih (n / 10) c h1
      · rw [List.mem_singleton.mp h1]
        exact digitChar_isDigit (n % 10) (Nat.mod_lt n (by omega))
  
theorem natDigits_digits (n : Nat) (c : Char) (hc : c ∈ natDigits n) :
    c.isDigit = true :=
  natDigitsAux_digits (n + 1) n c hc

theorem natDigits_ne_nil (n : Nat) : natDigits n ≠ [] := by
  rw [natDigits, natDigitsAux]
  split <;> simp

theorem intDigits_chars (i : Int) (c : Char) (hc : c ∈ intDigits i) :
    c.isDigit = true ∨ c = '-' := by
  rw [intDigits] at hc
  split at hc
  · rcases List.mem_cons.mp hc with h1 | h1
    · right; exact h1
    · left; exact natDigits_digits _ c h1
  · left; exact natDigits_digits _ c hc

theorem isDigit_plain (c : Char) (h : c.isDigit = true) :
    c ≠ '\t' ∧ c ≠ '\n' ∧ c ≠ '\r' := by
  refine ⟨?_, ?_, ?_⟩ <;> intro heq <;> rw [heq] at h <;> exact absurd h (by decide)

theorem safe_path_chars (p : List Char) (c : Char)
    (hc : c ∈ safe_path_for_tsv p) : c ≠ '\t' ∧ c ≠ '\n' ∧ c ≠ '\r' := by
  rw [safe_path_for_tsv] at hc
  obtain ⟨d, _, hd⟩ := List.mem_map.mp hc
  by_cases hctl : (d = '\t' || d = '\n' || d = '\r') = true
  · rw [if_pos hctl] at hd
    rw [← hd]
    refine ⟨by decide, by decide, by decide⟩
  · rw [if_neg hctl] at hd
    simp only [Bool.or_eq_true, decide_eq_true_eq, not_or] at hctl
    rw [← hd]
    exact ⟨fun h => hctl.1.1 (by simp [h]), fun h => hctl.1.2 (by simp [h]),
      fun h => hctl.2 (by simp [h])⟩

theorem count_eq_zero_of_all {l : List Char} {a : Char}
    (h : ∀ c ∈ l, c ≠ a) : l.count a = 0 := by
  rw [List.count_eq_zero]
  intro hmem
  exact h a hmem rfl

theorem tsvLine_concat (p : List Char) (sz : Nat) (mt : ℚ) :
    tsvLine p sz mt =
      (safe_path_for_tsv p ++ '\t' :: natDigits sz ++
        '\t' :: intDigits (pyInt mt)) ++ ['\n'] := by
  simp [tsvLine]

theorem tsvLine_wellformed (p : List Char) (sz : Nat) (mt : ℚ) :
    tsvLine p sz mt ≠ [] ∧ (tsvLine p sz mt).getLast? = some '\n' ∧
    (∀ c ∈ (tsvLine p sz mt).dropLast, c ≠ '\n' ∧ c ≠ '\r') ∧
    (tsvLine p sz mt).count '\t' = 2 := by
  rw [tsvLine_concat]
  refine ⟨by simp, ?_, ?_, ?_⟩
  · rw [List.getLast?_concat]
  · rw [List.dropLast_concat]
    intro c hc
    rcases List.mem_append.mp hc with h1 | h1
    · rcases List.mem_append.mp h1 with h2 | h2
      · have := safe_path_chars p c h2
        exact ⟨this.2.1, this.2.2⟩
      · rcases List.mem_cons.mp h2 with h3 | h3
        · rw [h3]; exact ⟨by decide, by decide⟩
        · have := isDigit_plain c (natDigits_digits sz c h3)
          exact ⟨this.2.1, this.2.2⟩
    · rcases List.mem_cons.mp h1 with h4 | h4
      · rw [h4]; exact ⟨by decide, by decide⟩
      · rcases intDigits_chars (pyInt mt) c h4 with h5 | h5
        · have := isDigit_plain c h5
          exact ⟨this.2.1, this.2.2⟩
        · rw [h5]; exact ⟨by decide, by decide⟩
  · have hsp : (safe_path_for_tsv p).count '\t' = 0 :=
      count_eq_zero_of_all (fun c hc => (safe_path_chars p c hc).1)
    have hnd : (natDigits sz).count '\t' = 0 :=
      count_eq_zero_of_all
        (fun c hc => (isDigit_plain c (natDigits_digits sz c hc)).1)
    have hid : (intDigits (pyInt mt)).count '\t' = 0 := by
      apply count_eq_zero_of_all
      intro c hc
      rcases intDigits_chars (pyInt mt) c hc with h5 | h5
      · exact (isDigit_plain c h5).1
      · rw [h5]; decide
    simp [List.count_append, List.count_cons, hsp, hnd, hid]

theorem fileContrib_rows (F : Filters) (dirpath : List Char) (e : IEntry) :
    ∀ row ∈ (fileContrib F dirpath e).1, ∃ p sz mt, row = tsvLine p sz mt := by
  intro row hrow
  cases e with
  | file n st =>
    by_cases h : is_excluded_filename n F = true
    · simp [fileContrib, h] at hrow
    · rw [Bool.not_eq_true] at h
      cases st with
      | ok sz mt =>
        refine ⟨dirpath ++ '/' :: n, sz, mt, ?_⟩
        simp [fileContrib, h] at hrow
        exact hrow
      | vanished => simp [fileContrib, h] at hrow
      | denied => simp [fileContrib, h] at hrow
  | dir n cs => simp [fileContrib] at hrow
  | dirDenied n => simp [fileContrib] at hrow
  | dirNotFound n => simp [fileContrib] at hrow

theorem sizeOf_ifilter_le (p : IEntry → Bool) (l : List IEntry) :
    sizeOf (l.filter p) ≤ sizeOf l := by
  induction l with
  | nil => simp
  | cons a as ih =>
    rw [List.filter_cons]
    split
    · simp; omega
    · simp; omega

mutual

theorem indexDirBody_rows (F : Filters) (dirpath : List Char) (cs : List IEntry) :
    ∀ row ∈ (indexDirBody F dirpath cs).1, ∃ p sz mt, row = tsvLine p sz mt := by
  intro row hrow
  rw [indexDirBody] at hrow
  rcases List.mem_append.mp hrow with h1 | h1
  · obtain ⟨l, hl, hrl⟩ := List.mem_flatten.mp h1
    obtain ⟨part, hpart, hpl⟩ := List.mem_map.mp hl
    obtain ⟨e, _, hpe⟩ := List.mem_map.mp hpart
    apply fileContrib_rows F dirpath e
    rw [hpe, hpl]
    exact hrl
  · exact indexDirsWalk_rows F dirpath _ row h1
termination_by (sizeOf cs, 1)
decreasing_by
  rcases lt_or_eq_of_le
    (le_trans (sizeOf_ifilter_le _ _) (sizeOf_ifilter_le _ cs)) with hlt | heq
  · exact Prod.Lex.left _ _ hlt
  · rw [heq]
    exact Prod.Lex.right _ (by omega)

theorem indexDirsWalk_rows (F : Filters) (dirpath : List Char) (ds : List IEntry) :
    ∀ row ∈ (indexDirsWalk F dirpath ds).1, ∃ p sz mt, row = tsvLine p sz mt := by
  intro row hrow
  match ds with
  | [] =>
    rw [indexDirsWalk] at hrow
    simp at hrow
  | d :: rest =>
    rw [indexDirsWalk] at hrow
    rcases List.mem_append.mp hrow with h1 | h1
    · exact indexVisit_rows F dirpath d row h1
    · exact indexDirsWalk_rows F dirpath rest row h1
termination_by (sizeOf ds, 0)
decreasing_by
  all_goals (apply Prod.Lex.left; simp <;> omega)

theorem indexVisit_rows (F : Filters) (dirpath : List Char) (d : IEntry) :
    ∀ row ∈ (indexVisit F dirpath d).1, ∃ p sz mt, row = tsvLine p sz mt := by
  intro row hrow
  match d with
  | .dir n cs =>
    rw [indexVisit] at hrow
    exact indexDirBody_rows F (dirpath ++ '/' :: n) cs row hrow
  | .dirDenied n => rw [indexVisit] at hrow; simp at hrow
  | .dirNotFound n => rw [indexVisit] at hrow; simp at hrow
  | .file n st => simp [indexVisit] at hrow
termination_by (sizeOf d, 0)
decreasing_by
  all_goals (apply Prod.Lex.left; simp <;> omega)

end

theorem write_index_tsv_rows (F : Filters) (rootPath : List Char) (root : IEntry) :
    ∀ row ∈ (write_index_tsv F rootPath root).1,
      ∃ p sz mt, row = tsvLine p sz mt := by
  intro row hrow
  cases root with
  | dir n cs =>
    rw [write_index_tsv] at hrow
    exact indexDirBody_rows F rootPath cs row hrow
  | dirDenied n => rw [write_index_tsv] at hrow; simp at hrow
  | dirNotFound n => rw [write_index_tsv] at hrow; simp at hrow
  | file n st => simp [write_index_tsv] at hrow

/-- C7: each surviving, successfully stat-ed file produces exactly one
index row `path\tsize\tmtime-truncated\n` with tab, newline and carriage
return in the path replaced by spaces; consequently every emitted row is a
single-line record ending in the only newline and containing exactly two
tabs. -/
theorem index_row_format (F : Filters) (dirpath n rootPath : List Char)
    (sz : Nat) (mt : ℚ) (root : IEntry) :
    (is_excluded_filename n F = false →
      fileContrib F dirpath (.file n (.ok sz mt)) =
        ([safe_path_for_tsv (dirpath ++ '/' :: n) ++ '\t' :: natDigits sz ++
          '\t' :: intDigits (pyInt mt) ++ ['\n']], false)) ∧
    (∀ row ∈ (write_index_tsv F rootPath root).1,
      row ≠ [] ∧ row.getLast? = some '\n' ∧
      (∀ c ∈ row.dropLast, c ≠ '\n' ∧ c ≠ '\r') ∧ row.count '\t' = 2) := by
  constructor
  · intro h
    simp [fileContrib, h, tsvLine]
  · intro row hrow
    obtain ⟨p, sz', mt', rfl⟩ := write_index_tsv_rows F rootPath root row hrow
    exact tsvLine_wellformed p sz' mt'

end CloudTree
namespace CloudTree

theorem globMatch_nil (s : List Char) : globMatch [] s = s.isEmpty := by
  rw [globMatch.eq_def]

theorem globMatch_cons (c : Char) (ps s : List Char) :
    globMatch (c :: ps) s =
      if c = '*' then anySuffix (globMatch ps) s
      else
        match s with
        | [] => false
        | d :: ds => c = d && globMatch ps ds := by
  rw [globMatch.eq_def]

theorem anySuffix_iff (f : List Char → Bool) (s : List Char) :
    anySuffix f s = true ↔ ∃ t, t <:+ s ∧ f t = true := by
  induction s with
  | nil =>
    rw [anySuffix]
    constructor
    · intro h
      exact ⟨[], List.nil_suffix, h⟩
    · rintro ⟨t, ht, hf⟩
      rw [List.suffix_nil.mp ht] at hf
      exact hf
  | cons c cs ih =>
    rw [anySuffix, Bool.or_eq_true, ih]
    constructor
    · rintro (h | ⟨t, ht, hf⟩)
      · exact ⟨c :: cs, List.suffix_refl _, h⟩
      · exact ⟨t, ht.trans (List.suffix_cons c cs), hf⟩
    · rintro ⟨t, ht, hf⟩
      rcases List.suffix_cons_iff.mp ht with h1 | h1
      · left
        rw [← h1]
        exact hf
      · right
        exact ⟨t, h1, hf⟩

theorem globMatch_lit (lit s : List Char) (hstar : ('*' : Char) ∉ lit) :
    globMatch lit s = true ↔ s = lit := by
  induction lit generalizing s with
  | nil =>
    rw [globMatch_nil]
    rw [List.isEmpty_iff]
  | cons c cs ih =>
    rw [globMatch_cons]
    have hc : ¬ (c = '*') := fun h => hstar (h ▸ List.mem_cons_self c cs)
    rw [if_neg hc]
    cases s with
    | nil => simp
    | cons d ds =>
      simp only [Bool.and_eq_true, decide_eq_true_eq]
      rw [ih ds (fun h => hstar (List.mem_cons_of_mem _ h))]
      constructor
      · rintro ⟨h1, h2⟩
        rw [h1, h2]
      · intro h
        injection h with h1 h2
        exact ⟨h1.symm, h2⟩

theorem globMatch_star_lit (lit s : List Char) (hstar : ('*' : Char) ∉ lit) :
    globMatch ('*' :: lit) s = true ↔ lit <:+ s := by
  rw [globMatch_cons, if_pos rfl, anySuffix_iff]
  constructor
  · rintro ⟨t, ht, hf⟩
    rw [(globMatch_lit lit t hstar).mp hf] at ht
    exact ht
  · intro h
    exact ⟨lit, h, (globMatch_lit lit lit hstar).mpr rfl⟩

theorem globMatch_pre_star (pre : List Char) (hstar : ('*' : Char) ∉ pre) :
    ∀ s : List Char, globMatch (pre ++ ['*']) s = true ↔ pre <+: s := by
  induction pre with
  | nil =>
    intro s
    simp only [List.nil_append]
    rw [globMatch_cons, if_pos rfl]
    constructor
    · intro _
      exact List.nil_prefix
    · intro _
      rw [anySuffix_iff]
      refine ⟨[], List.nil_suffix, ?_⟩
      rw [globMatch_nil]
      rfl
  | cons c cs ih =>
    intro s
    have hc : ¬ (c = '*') := fun h => hstar (h ▸ List.mem_cons_self c cs)
    rw [List.cons_append, globMatch_cons, if_neg hc]
    cases s with
    | nil =>
      constructor
      · intro h
        exact absurd h (by simp)
      · intro h
        have := List.IsPrefix.length_le h
        simp at this
    | cons d ds =>
      simp only [Bool.and_eq_true, decide_eq_true_eq]
      rw [ih (fun h => hstar (List.mem_cons_of_mem _ h)) ds, List.cons_prefix_cons]

theorem mem_dedupKeepFirst (x : List Char) (l : List (List Char)) :
    ∀ seen : List (List Char),
      x ∈ dedupKeepFirst seen l ↔ x ∈ l ∧ x ∉ seen := by
  induction l with
  | nil =>
    intro seen
    simp [dedupKeepFirst]
  | cons a as ih =>
    intro seen
    rw [dedupKeepFirst]
    split <;> rename_i ha
    · rw [ih seen]
      constructor
      · rintro ⟨h1, h2⟩
        exact ⟨List.mem_cons_of_mem a h1, h2⟩
      · rintro ⟨h1, h2⟩
        rcases List.mem_cons.mp h1 with h3 | h3
        · exact absurd (h3 ▸ ha) h2
        · exact ⟨h3, h2⟩
    · constructor
      · intro hx
        rcases List.mem_cons.mp hx with h3 | h3
        · refine ⟨h3 ▸ List.mem_cons_self a as, h3 ▸ ha⟩
        · rw [ih (a :: seen)] at h3
          exact ⟨List.mem_cons_of_mem a h3.1,
            fun hx2 => h3.2 (List.mem_cons_of_mem a hx2)⟩
      · rintro ⟨h1, h2⟩
        rcases List.mem_cons.mp h1 with h3 | h3
        · rw [h3]
          exact List.mem_cons_self a _
        · by_cases hxa : x = a
          · rw [hxa]
            exact List.mem_cons_self a _
          · apply List.mem_cons_of_mem
            rw [ih (a :: seen)]
            refine ⟨h3, fun hx2 => ?_⟩
            rcases List.mem_cons.mp hx2 with h4 | h4
            · exact hxa h4
            · exact h2 h4

theorem self_mem_case_variants (t : List Char) (h : t ≠ []) :
    t ∈ case_variants t := by
  rw [case_variants, if_neg (by simpa using h)]
  split
  · exact List.mem_singleton.mpr rfl
  · rw [mem_dedupKeepFirst]
    exact ⟨by simp, by simp⟩

end CloudTree
namespace CloudTree

theorem pyLower_fixed_of_append (stem e name : List Char)
    (heq : name = stem ++ '.' :: e) (hlow : pyLower name = name) :
    pyLower e = e := by
  subst heq
  rw [pyLower, List.map_append, List.map_cons] at hlow
  have hlen : (List.map Char.toLower stem).length = stem.length := by simp
  obtain ⟨h1, h2⟩ := List.append_inj hlow hlen
  injection h2 with h3 h4

theorem mem_build_pattern_of (F : Filters) (pat : List Char)
    (h : pat ∈ (isort lexLE F.excluded_exts).map (fun e => '*' :: '.' :: e) ++
      (isort lexLE F.excluded_basenames).flatMap case_variants ++
      (isort lexLE F.excluded_dirnames).flatMap case_variants ++
      F.excluded_dir_prefixes.flatMap
        (fun p => (case_variants p).map (fun v => v ++ ['*']))) :
    pat ∈ build_tree_ignore_pattern F := by
  rw [build_tree_ignore_pattern, mem_dedupKeepFirst]
  exact ⟨h, by simp⟩

/-- C9 (amended): the external path is taken exactly when requested, the
tool is available and no word filter is active; and for lowercase, trimmed,
nonempty names (with filter strings free of `*` and nonempty), every entry
the in-process walk excludes is also excluded by the external tool's
generated ignore pattern.  Full equivalence does not hold: matching by the
external tool is case-sensitive, see the counterexample. -/
theorem external_tree_filter_containment (F : Filters) (name : List Char)
    (use_tree treeAvail : Bool)
    (hw : F.excluded_words = [])
    (hlow : pyLower name = name)
    (hstrip : pyStrip name = name)
    (hne : name ≠ [])
    (hplain : ∀ s, (s ∈ F.excluded_basenames ∨ s ∈ F.excluded_dirnames ∨
        s ∈ F.excluded_dir_prefixes) → ('*' : Char) ∉ s ∧ s ≠ [])
    (hexts : ∀ s ∈ F.excluded_exts, ('*' : Char) ∉ s) :
    (is_excluded_filename name F = true → tree_ignore_excludes F name = true) ∧
    (is_excluded_dirname name F = true → tree_ignore_excludes F name = true) ∧
    (uses_external_tree use_tree treeAvail F = true ↔
      use_tree = true ∧ treeAvail = true ∧ F.excluded_words = []) := by
  refine ⟨?_, ?_, ?_⟩
  · intro hf
    rcases (filename_excluded_iff name F).mp hf with
      hb | ⟨stem, e, hstem, hee, hdote, heq, hmem⟩ | hword
    · rw [hstrip, hlow] at hb
      rw [tree_ignore_excludes, List.any_eq_true]
      refine ⟨name, ?_, ?_⟩
      · apply mem_build_pattern_of
        simp only [List.mem_append]
        refine Or.inl (Or.inl (Or.inr ?_))
        rw [List.mem_flatMap]
        exact ⟨name, (mem_isort _ _ _).mpr hb, self_mem_case_variants name hne⟩
      · exact (globMatch_lit name name (hplain name (Or.inl hb)).1).mpr rfl
    · have hlowe : pyLower e = e := pyLower_fixed_of_append stem e name heq hlow
      rw [hlowe] at hmem
      rw [tree_ignore_excludes, List.any_eq_true]
      refine ⟨'*' :: '.' :: e, ?_, ?_⟩
      · apply mem_build_pattern_of
        simp only [List.mem_append]
        refine Or.inl (Or.inl (Or.inl ?_))
        rw [List.mem_map]
        exact ⟨e, (mem_isort _ _ _).mpr hmem, rfl⟩
      · have hstar2 : ('*' : Char) ∉ '.' :: e := by
          intro hx
          rcases List.mem_cons.mp hx with h1 | h1
          · exact absurd h1 (by decide)
          · exact hexts e hmem h1
        rw [globMatch_star_lit ('.' :: e) name hstar2]
        exact ⟨stem, heq.symm⟩
    · rw [hw] at hword
      simp at hword
  · intro hd
    rcases (dirname_excluded_iff name F).mp hd with
      hb | ⟨p, hp, hpre⟩ | hword
    · rw [hstrip, hlow] at hb
      rw [tree_ignore_excludes, List.any_eq_true]
      refine ⟨name, ?_, ?_⟩
      · apply mem_build_pattern_of
        simp only [List.mem_append]
        refine Or.inl (Or.inr ?_)
        rw [List.mem_flatMap]
        exact ⟨name, (mem_isort _ _ _).mpr hb,
          self_mem_case_variants name hne⟩
      · exact (globMatch_lit name name
          (hplain name (Or.inr (Or.inl hb))).1).mpr rfl
    · rw [hstrip, hlow] at hpre
      rw [tree_ignore_excludes, List.any_eq_true]
      have hpl := hplain p (Or.inr (Or.inr hp))
      refine ⟨p ++ ['*'], ?_, ?_⟩
      · apply mem_build_pattern_of
        simp only [List.mem_append]
        refine Or.inr ?_
        rw [List.mem_flatMap]
        refine ⟨p, hp, ?_⟩
        rw [List.mem_map]
        exact ⟨p, self_mem_case_variants p hpl.2, rfl⟩
      · exact (globMatch_pre_star p hpl.1 name).mpr hpre
    · rw [hw] at hword
      simp at hword
  · rw [uses_external_tree]
    simp [Bool.and_eq_true, List.isEmpty_iff, and_assoc]

/-- C9 counterexample: `X.OBJ` is excluded by the in-process walk (matching
is case-insensitive) but matches none of the generated `tree -I` patterns
(matching is case-sensitive and only `*.obj` is generated), so the two code
paths do not exclude the same entries. -/
theorem external_tree_case_mismatch :
    is_excluded_filename "X.OBJ".data default_filters = true ∧
    tree_ignore_excludes default_filters "X.OBJ".data = false := by
  decide

/-- C10: on the external path, the permission flag returned by
`write_tree_txt` is true exactly when the tool's captured output contains
the substring `Permission denied` or `Operation not permitted` — so a listed
entry whose name contains such a substring sets the flag without any
permission error, and a permission failure worded differently does not set
it. -/
theorem external_flag_substring_scrape (use_tree treeAvail : Bool)
    (toolStdout : List Char) (F : Filters) (depth : Nat)
    (rootPath : List Char) (root : TEntry)
    (h : uses_external_tree use_tree treeAvail F = true) :
    ((write_tree_txt use_tree treeAvail toolStdout F depth rootPath root).2 = true ↔
      ("Permission denied".data <:+: toolStdout ∨
        "Operation not permitted".data <:+: toolStdout)) := by
  rw [write_tree_txt, if_pos h]
  simp [permission_flag_from_output]

end CloudTree
namespace CloudTree

/-- C4 witness: pruning a default-excluded `mesh` directory containing a
non-matching file. -/
theorem index_hard_prunes_witness :
    is_excluded_dirname "mesh".data default_filters = true ∧
    indexDirBody default_filters "/r".data
      ([.file "a.txt".data (.ok 3 7)] ++
        .dir "mesh".data [.file "keep.txt".data (.ok 1 2)] :: []) =
    indexDirBody default_filters "/r".data ([.file "a.txt".data (.ok 3 7)] ++ []) :=
  ⟨by decide,
   index_hard_prunes_excluded_dirs default_filters "/r".data "mesh".data
     [.file "keep.txt".data (.ok 1 2)] [.file "a.txt".data (.ok 3 7)] []
     (by decide)⟩

/-- C7 witness: the row emitted for a concrete file. -/
theorem index_row_format_witness :
    is_excluded_filename "a.txt".data default_filters = false ∧
    fileContrib default_filters "/r".data (.file "a.txt".data (.ok 3 7)) =
      ([safe_path_for_tsv ("/r".data ++ '/' :: "a.txt".data) ++
        '\t' :: natDigits 3 ++ '\t' :: intDigits (pyInt 7) ++ ['\n']], false) :=
  ⟨by decide,
   (index_row_format default_filters "/r".data "a.txt".data "/r".data 3 7
     (.dir "/r".data [])).1 (by decide)⟩

/-- C8 witness: the stat-failure behaviour of the tree walk at a concrete
entry. -/
theorem walk_error_handling_witness :
    is_excluded_filename "ghost".data default_filters = false ∧
    walkChildren default_filters 0 [.statFail "ghost".data true] [] 1 =
      ([[] ++ connLast ++ "ghost".data], true) :=
  ⟨by decide,
   (walk_error_handling default_filters 0 "ghost".data "/r".data [] 1).2.2.2.2.2
     (by decide) true⟩

/-- C9 witness: the containment at a concrete lowercase name under the
default filters. -/
theorem external_tree_filter_containment_witness :
    (default_filters.excluded_words = [] ∧
      pyLower "x.obj".data = "x.obj".data ∧
      pyStrip "x.obj".data = "x.obj".data ∧
      "x.obj".data ≠ []) ∧
    (is_excluded_filename "x.obj".data default_filters = true →
      tree_ignore_excludes default_filters "x.obj".data = true) ∧
    (is_excluded_dirname "x.obj".data default_filters = true →
      tree_ignore_excludes default_filters "x.obj".data = true) ∧
    (uses_external_tree true true default_filters = true ↔
      true = true ∧ true = true ∧ default_filters.excluded_words = []) :=
  ⟨⟨by decide, by decide, by decide, by decide⟩,
   external_tree_filter_containment default_filters "x.obj".data true true
     (by decide) (by decide) (by decide) (by decide)
     (fun s hs => by
       rcases hs with h | h | h <;> revert h <;> revert s <;> decide)
     (fun s hs => by revert hs; revert s; decide)⟩

/-- C10 witness: tool output that merely lists a file named
`Permission denied.txt` satisfies the flag condition. -/
theorem external_flag_substring_scrape_witness :
    uses_external_tree true true default_filters = true ∧
    ((write_tree_txt true true "/r\n|-- Permission denied.txt\n".data
        default_filters 0 "/r".data (.dir "/r".data [])).2 = true ↔
      ("Permission denied".data <:+: "/r\n|-- Permission denied.txt\n".data ∨
        "Operation not permitted".data <:+: "/r\n|-- Permission denied.txt\n".data)) :=
  ⟨by decide,
   external_flag_substring_scrape true true "/r\n|-- Permission denied.txt\n".data
     default_filters 0 "/r".data (.dir "/r".data []) (by decide)⟩

end CloudTree
